import Mathlib

set_option autoImplicit false

/-!
Verification development for the BigY SNP classification module
(`bigy_snp.py`): the `KitCollection` data model, its membership queries
(`snps`, `consistent_snps`, `uncertain_snps`, `inconsistent_snps`), the
three-way partition operator (`split` / `filter`), and the
`subclade_candidates` inference algorithm.

A person's call mapping is a Python dict from marker name to call value;
we embed it as an association list of string pairs.  A `KitCollection`
holds a dict from person identifier to call mapping; we embed it as an
association list of `(identifier, Muts)` pairs.  Python dict iteration
order is unspecified; every set-valued accumulation in the source is
order-independent (it only adds to, or only removes from, a set using
conditions that do not consult the accumulating set), so those loops are
embedded over the underlying list, or as comprehensions over the
corresponding finite set where noted.  The only order-sensitive loop in
the source (the final equivalence-collapse, which iterates
`sorted(first_level_candidates)`) is embedded as a fold over the sorted
list, exactly as written.
-/

/-- One individual's call mapping: marker name → observed call value.
Embeds one value of the person dict in `bigy_snp.py`.  A Python dict has
unique keys; theorems that need that fact take it as a `Nodup` hypothesis. -/
structure Muts where
  entries : List (String × String)
deriving DecidableEq

namespace Muts

/-- Python `snp in person`: `snp` appears as a key of the call mapping. -/
def hasKey (m : Muts) (snp : String) : Bool :=
  m.entries.any (fun kv => kv.1 == snp)

/-- Python `person[snp]` (first matching key, total via `Option`). -/
def call (m : Muts) (snp : String) : Option String :=
  m.entries.lookup snp

/-- The key set of the call mapping (`set(person.keys())`). -/
def keySet (m : Muts) : Finset String :=
  (m.entries.map Prod.fst).toFinset

/-- Python `set([snp for snp in person.keys() if person[snp] == snp])`:
the markers this person is confirmed positive for. -/
def positiveSet (m : Muts) : Finset String :=
  ((m.entries.map Prod.fst).filter (fun snp => m.call snp == some snp)).toFinset

/-- The keys the inner loop of `uncertain_snps` adds for one person:
`for snp in person: if person[snp] != snp: candidates.add(snp)`. -/
def uncertainSet (m : Muts) : Finset String :=
  ((m.entries.map Prod.fst).filter (fun snp => ¬(m.call snp == some snp))).toFinset

end Muts

/-! Python's `sorted()` on marker names orders them lexicographically.  We
embed it with an explicit structurally recursive lexicographic order on
the character lists of the strings (so that concrete instances evaluate
inside the kernel), and sort by insertion sort lifted to finite sets. -/

/-- Lexicographic order on character lists: the standard string order used
by the source's `sorted(first_level_candidates)`. -/
def charLeList : List Char → List Char → Bool
  | [], _ => true
  | _ :: _, [] => false
  | a :: as, b :: bs => decide (a < b) || (a == b && charLeList as bs)

/-- Lexicographic order on strings. -/
def strLeRel (a b : String) : Prop :=
  charLeList a.data b.data = true

instance : DecidableRel strLeRel :=
  fun a b => inferInstanceAs (Decidable (charLeList a.data b.data = true))

theorem charLeList_total : ∀ l1 l2 : List Char,
    charLeList l1 l2 = true ∨ charLeList l2 l1 = true := by
  intro l1
  induction l1 with
  | nil => intro l2; left; rfl
  | cons a as ih =>
    intro l2
    cases l2 with
    | nil => right; rfl
    | cons b bs =>
      rcases lt_trichotomy a b with h | h | h
      · left; simp [charLeList]; tauto
      · subst h
        rcases ih bs with h2 | h2
        · left; simp [charLeList]; tauto
        · right; simp [charLeList]; tauto
      · right; simp [charLeList]; tauto

theorem charLeList_trans : ∀ l1 l2 l3 : List Char,
    charLeList l1 l2 = true → charLeList l2 l3 = true → charLeList l1 l3 = true := by
  intro l1
  induction l1 with
  | nil => intro l2 l3 _ _; rfl
  | cons a as ih =>
    intro l2 l3 h1 h2
    cases l2 with
    | nil => simp [charLeList] at h1
    | cons b bs =>
      cases l3 with
      | nil => simp [charLeList] at h2
      | cons c cs =>
        simp only [charLeList, Bool.or_eq_true, Bool.and_eq_true, decide_eq_true_eq,
          beq_iff_eq] at h1 h2 ⊢
        rcases h1 with h1 | ⟨rfl, h1⟩
        · rcases h2 with h2 | ⟨rfl, h2⟩
          · exact Or.inl (lt_trans h1 h2)
          · exact Or.inl h1
        · rcases h2 with h2 | ⟨rfl, h2⟩
          · exact Or.inl h2
          · exact Or.inr ⟨rfl, ih bs cs h1 h2⟩

theorem charLeList_antisymm : ∀ l1 l2 : List Char,
    charLeList l1 l2 = true → charLeList l2 l1 = true → l1 = l2 := by
  intro l1
  induction l1 with
  | nil =>
    intro l2 _ h2
    cases l2 with
    | nil => rfl
    | cons b bs => simp [charLeList] at h2
  | cons a as ih =>
    intro l2 h1 h2
    cases l2 with
    | nil => simp [charLeList] at h1
    | cons b bs =>
      simp only [charLeList, Bool.or_eq_true, Bool.and_eq_true, decide_eq_true_eq,
        beq_iff_eq] at h1 h2
      rcases h1 with h1 | ⟨rfl, h1⟩
      · rcases h2 with h2 | ⟨rfl, h2⟩
        · exact absurd h2 (lt_asymm h1)
        · exact absurd h1 (lt_irrefl _)
      · rcases h2 with h2 | ⟨_, h2⟩
        · exact absurd h2 (lt_irrefl _)
        · exact congrArg (a :: ·) (ih bs h1 h2)

instance : IsTrans String strLeRel :=
  ⟨fun a b c => charLeList_trans a.data b.data c.data⟩

instance : IsAntisymm String strLeRel := by
  refine ⟨fun a b h1 h2 => ?_⟩
  cases a; cases b
  exact congrArg String.mk (charLeList_antisymm _ _ h1 h2)

instance : IsTotal String strLeRel :=
  ⟨fun a b => charLeList_total a.data b.data⟩

/-- Enumerate a finite set of marker names in lexicographically sorted
order (the embedding of Python's `sorted(...)` over a set). -/
def sortedList (s : Finset String) : List String :=
  Quotient.liftOn s.val (fun l => l.insertionSort strLeRel)
    (fun l1 l2 h => List.eq_of_perm_of_sorted
      ((List.perm_insertionSort strLeRel l1).trans
        ((Quotient.exact (Quotient.sound h) : l1.Perm l2).trans
          (List.perm_insertionSort strLeRel l2).symm))
      (List.sorted_insertionSort strLeRel l1)
      (List.sorted_insertionSort strLeRel l2))

theorem mem_sortedList {s : Finset String} {x : String} :
    x ∈ sortedList s ↔ x ∈ s := by
  rcases s with ⟨val, nd⟩
  induction val using Quotient.inductionOn with
  | h l =>
    show x ∈ l.insertionSort strLeRel ↔ _
    rw [(List.perm_insertionSort strLeRel l).mem_iff]
    rfl

/-- `class KitCollection`: a dict from person identifier to call mapping,
embedded as an association list. -/
structure KitCollection where
  persons : List (String × Muts)
deriving DecidableEq

namespace KitCollection

/-- `count(self)`: `len(self.persons)`. -/
def count (c : KitCollection) : Nat :=
  c.persons.length

/-- `add_person(self, id, mutations)`: `self.persons[id] = mutations`.
Python dict assignment overwrites an existing key in place and appends a
fresh one. -/
def add_person (c : KitCollection) (id : String) (mutations : Muts) : KitCollection :=
  if c.persons.any (fun p => p.1 == id) then
    ⟨c.persons.map (fun p => if p.1 == id then (id, mutations) else p)⟩
  else
    ⟨c.persons ++ [(id, mutations)]⟩

/-- `split(self, snp)`: each person goes to `selected` when the marker is a
key mapped to its own name, to `uncertain` when it is a key mapped to a
different value, and to `not_selected` when it is not a key.  The loop
distributes the persons over the three dicts; we embed it as one filter per
branch of the source's if/else tree. -/
def split (c : KitCollection) (snp : String) :
    KitCollection × KitCollection × KitCollection :=
  (⟨c.persons.filter (fun p => p.2.hasKey snp && (p.2.call snp == some snp))⟩,
   ⟨c.persons.filter (fun p => !p.2.hasKey snp)⟩,
   ⟨c.persons.filter (fun p => p.2.hasKey snp && !(p.2.call snp == some snp))⟩)

/-- `filter(self, snp)`: `self.split(snp)[0]`. -/
def filter (c : KitCollection) (snp : String) : KitCollection :=
  (c.split snp).1

/-- `snps(self)`: the union over all persons of their key sets. -/
def snps (c : KitCollection) : Finset String :=
  c.persons.foldl (fun found p => found ∪ p.2.keySet) ∅

/-- `consistent_snps(self)`: start from `snps()` and intersect with each
person's confirmed-positive set. -/
def consistent_snps (c : KitCollection) : Finset String :=
  c.persons.foldl (fun candidates p => candidates ∩ p.2.positiveSet) c.snps

/-- `uncertain_snps(self)`: union over persons of the keys whose value
differs from the key. -/
def uncertain_snps (c : KitCollection) : Finset String :=
  c.persons.foldl (fun candidates p => candidates ∪ p.2.uncertainSet) ∅

/-- One iteration of the person loop of `inconsistent_snps`: the state is
`(candidates, verified_inconsistent)`; the loop body first runs
`candidates.difference_update(verified)` and then adds to `verified` every
remaining candidate that is not a key of this person. -/
def inconStep (st : Finset String × Finset String) (p : String × Muts) :
    Finset String × Finset String :=
  (st.1 \ st.2,
   st.2 ∪ (st.1 \ st.2).filter (fun snp => p.2.hasKey snp = false))

/-- `inconsistent_snps(self)`: fold of `inconStep` over the persons,
starting from `(snps() - consistent_snps(), ∅)`; the result is the final
`verified_inconsistent` set. -/
def inconsistent_snps (c : KitCollection) : Finset String :=
  (c.persons.foldl inconStep (c.snps \ c.consistent_snps, (∅ : Finset String))).2

/-- The identifier set of a collection (`set(x.persons.keys())`). -/
def ids (c : KitCollection) : Finset String :=
  (c.persons.map Prod.fst).toFinset

/-! The `subclade_candidates` algorithm.  The source builds a dict
`consistent_for_this` mapping every inconsistent marker whose positive
sub-collection is non-empty to that sub-collection's consistent set; we
embed the dict as its key set (`candidateKeys`) and its lookup function
(`consistent_for_this`).  The pairwise loop over `consistent_for_this`
then (a) records equivalents, (b) discards markers whose profile properly
contains another candidate's profile, and (c) flags incomparable pairs for
a second look.  Each of those accumulations only adds to (or only removes
from) its set, under conditions that read nothing but the immutable
profiles, so the state after the loop is independent of the dict's
iteration order and is embedded as a comprehension. -/

/-- `consistent_for_this[snp] = self.filter(snp).consistent_snps()`:
the profile of a candidate marker. -/
def consistent_for_this (c : KitCollection) (snp : String) : Finset String :=
  (c.filter snp).consistent_snps

/-- The key set of the `consistent_for_this` dict: every inconsistent
marker `snp` with `self.filter(snp).count() > 0`. -/
def candidateKeys (c : KitCollection) : Finset String :=
  c.inconsistent_snps.filter (fun snp => 0 < (c.filter snp).count)

/-- `equivalents[snp1]`: the other candidates whose profile equals
`snp1`'s (`consistent_for_this[snp1] == consistent_for_this[snp2]`,
skipping `snp1 == snp2`). -/
def equivalents (c : KitCollection) (snp1 : String) : Finset String :=
  c.candidateKeys.filter
    (fun snp2 => snp2 ≠ snp1 ∧ c.consistent_for_this snp1 = c.consistent_for_this snp2)

/-- `first_level_candidates` after the profile-comparison loop: a
candidate `snp1` is discarded exactly when some candidate `snp2` has
`consistent_for_this[snp1] > consistent_for_this[snp2]` (either as `snp1`
in the second branch or as `snp2` in the third). -/
def firstLevelAfterProfiles (c : KitCollection) : Finset String :=
  c.candidateKeys.filter
    (fun snp1 => ¬ ∃ snp2 ∈ c.candidateKeys,
      c.consistent_for_this snp2 ⊂ c.consistent_for_this snp1)

/-- The source's final `else` branch: the two profiles are neither equal
nor related by strict inclusion. -/
def incomp (a b : Finset String) : Prop :=
  ¬ a ⊂ b ∧ ¬ b ⊂ a ∧ a ≠ b

instance (a b : Finset String) : Decidable (incomp a b) :=
  inferInstanceAs (Decidable (¬ a ⊂ b ∧ ¬ b ⊂ a ∧ a ≠ b))

/-- `second_look` as it stands when the second-look loop starts: markers
flagged in an incomparable pair, intersected with the surviving
`first_level_candidates`. -/
def secondLook (c : KitCollection) : Finset String :=
  (c.candidateKeys.filter
    (fun snp1 => ∃ snp2 ∈ c.candidateKeys, snp2 ≠ snp1 ∧
      incomp (c.consistent_for_this snp1) (c.consistent_for_this snp2)))
  ∩ c.firstLevelAfterProfiles

/-- The discard test of the second-look loop body: the pair is
incomparable, and the identifiers confirmed positive for `snp1`
(`snp1_yes.persons.keys()`) form a proper subset of the identifiers
positive or uncertain for `snp2`
(`snp2_yes.persons.keys() + snp2_maybe.persons.keys()`). -/
def secondLookDrops (c : KitCollection) (snp1 snp2 : String) : Prop :=
  incomp (c.consistent_for_this snp1) (c.consistent_for_this snp2) ∧
  (c.split snp1).1.ids ⊂ (c.split snp2).1.ids ∪ (c.split snp2).2.2.ids

instance (c : KitCollection) (snp1 snp2 : String) :
    Decidable (c.secondLookDrops snp1 snp2) :=
  inferInstanceAs (Decidable
    (incomp (c.consistent_for_this snp1) (c.consistent_for_this snp2) ∧
     (c.split snp1).1.ids ⊂ (c.split snp2).1.ids ∪ (c.split snp2).2.2.ids))

/-- `first_level_candidates` after the second-look loop: the double loop
over `second_look` discards `snp1` whenever `secondLookDrops snp1 snp2`
holds.  The set iteration order is unspecified in the source and
irrelevant (the test reads no mutable state); we fold over the sorted
elements. -/
def firstLevelAfterSecondLook (c : KitCollection) : Finset String :=
  (sortedList c.secondLook).foldl
    (fun fl snp1 =>
      (sortedList c.secondLook).foldl
        (fun fl2 snp2 => if c.secondLookDrops snp1 snp2 then fl2.erase snp1 else fl2)
        fl)
    c.firstLevelAfterProfiles

/-- The `do_not_present` accumulation: iterate the surviving candidates in
sorted order and, for each one not yet suppressed, suppress all its
equivalents. -/
def doNotPresent (c : KitCollection) : Finset String :=
  (sortedList c.firstLevelAfterSecondLook).foldl
    (fun dnp snp => if snp ∈ dnp then dnp else dnp ∪ c.equivalents snp)
    (∅ : Finset String)

/-- The key set of the returned dict:
`first_level_candidates - do_not_present`. -/
def subcladeKeys (c : KitCollection) : Finset String :=
  c.firstLevelAfterSecondLook \ c.doNotPresent

/-- `subclade_candidates(self)`: the returned dict, mapping each surviving
representative to its equivalents; embedded as the association list over
the sorted key set. -/
def subclade_candidates (c : KitCollection) : List (String × Finset String) :=
  (sortedList c.subcladeKeys).map (fun snp => (snp, c.equivalents snp))

end KitCollection

namespace Muts

theorem mem_keySet {m : Muts} {x : String} :
    x ∈ m.keySet ↔ m.hasKey x = true := by
  simp only [keySet, hasKey, List.mem_toFinset, List.mem_map, List.any_eq_true,
    beq_iff_eq]

theorem hasKey_iff_call_isSome {m : Muts} {x : String} :
    m.hasKey x = true ↔ (m.call x).isSome := by
  simp only [hasKey, call, List.lookup_isSome_iff, List.any_eq_true, beq_iff_eq]
  constructor
  · rintro ⟨kv, hkv, rfl⟩; exact ⟨kv, hkv, rfl⟩
  · rintro ⟨kv, hkv, h⟩; exact ⟨kv, hkv, h.symm⟩

theorem hasKey_of_call_eq_some {m : Muts} {x v : String} (h : m.call x = some v) :
    m.hasKey x = true :=
  hasKey_iff_call_isSome.mpr (by simp [h])

theorem not_hasKey_iff_call_eq_none {m : Muts} {x : String} :
    m.hasKey x = false ↔ m.call x = none := by
  rw [← Bool.not_eq_true, hasKey_iff_call_isSome]
  cases m.call x <;> simp

theorem mem_positiveSet {m : Muts} {x : String} :
    x ∈ m.positiveSet ↔ m.call x = some x := by
  simp only [positiveSet, List.mem_toFinset, List.mem_filter, List.mem_map,
    beq_iff_eq]
  constructor
  · rintro ⟨-, h⟩; exact h
  · intro h
    refine ⟨?_, h⟩
    have := hasKey_of_call_eq_some h
    simp only [hasKey, List.any_eq_true, beq_iff_eq] at this
    obtain ⟨kv, hkv, rfl⟩ := this
    exact ⟨kv, hkv, rfl⟩

end Muts

namespace KitCollection

theorem foldl_union_keySet_mem (l : List (String × Muts)) (init : Finset String)
    (x : String) :
    x ∈ l.foldl (fun found p => found ∪ p.2.keySet) init ↔
      x ∈ init ∨ ∃ p ∈ l, x ∈ p.2.keySet := by
  induction l generalizing init with
  | nil => simp
  | cons h t ih =>
    rw [List.foldl_cons, ih]
    simp only [Finset.mem_union, List.mem_cons]
    constructor
    · rintro ((hx | hx) | ⟨p, hp, hx⟩)
      · exact Or.inl hx
      · exact Or.inr ⟨h, Or.inl rfl, hx⟩
      · exact Or.inr ⟨p, Or.inr hp, hx⟩
    · rintro (hx | ⟨p, rfl | hp, hx⟩)
      · exact Or.inl (Or.inl hx)
      · exact Or.inl (Or.inr hx)
      · exact Or.inr ⟨p, hp, hx⟩

theorem mem_snps {c : KitCollection} {x : String} :
    x ∈ c.snps ↔ ∃ p ∈ c.persons, x ∈ p.2.keySet := by
  rw [snps, foldl_union_keySet_mem]
  simp

theorem foldl_inter_positiveSet_mem (l : List (String × Muts)) (init : Finset String)
    (x : String) :
    x ∈ l.foldl (fun candidates p => candidates ∩ p.2.positiveSet) init ↔
      x ∈ init ∧ ∀ p ∈ l, x ∈ p.2.positiveSet := by
  induction l generalizing init with
  | nil => simp
  | cons h t ih =>
    rw [List.foldl_cons, ih]
    simp only [Finset.mem_inter, List.mem_cons, and_assoc]
    constructor
    · rintro ⟨h1, h2, h3⟩
      exact ⟨h1, fun p hp => by rcases hp with rfl | hp; exacts [h2, h3 p hp]⟩
    · rintro ⟨h1, h2⟩
      exact ⟨h1, h2 h (Or.inl rfl), fun p hp => h2 p (Or.inr hp)⟩

theorem mem_consistent_snps {c : KitCollection} {x : String} :
    x ∈ c.consistent_snps ↔ x ∈ c.snps ∧ ∀ p ∈ c.persons, x ∈ p.2.positiveSet := by
  rw [consistent_snps, foldl_inter_positiveSet_mem]

theorem foldl_inconStep_mem (l : List (String × Muts)) (cands ver : Finset String)
    (x : String) :
    x ∈ (l.foldl inconStep (cands, ver)).2 ↔
      x ∈ ver ∨ (x ∈ cands ∧ x ∉ ver ∧ ∃ p ∈ l, p.2.hasKey x = false) := by
  induction l generalizing cands ver with
  | nil => simp
  | cons h t ih =>
    rw [List.foldl_cons]
    show x ∈ (t.foldl inconStep
      (cands \ ver, ver ∪ (cands \ ver).filter (fun snp => h.2.hasKey snp = false))).2 ↔ _
    rw [ih]
    simp only [Finset.mem_union, Finset.mem_filter, Finset.mem_sdiff, List.mem_cons,
      exists_eq_or_imp, not_or]
    constructor
    · rintro (h1 | h1) <;> tauto
    · intro h1
      by_cases hk0 : h.2.hasKey x = false <;> tauto

theorem mem_inconsistent_snps {c : KitCollection} {x : String} :
    x ∈ c.inconsistent_snps ↔
      x ∈ c.snps ∧ x ∉ c.consistent_snps ∧ ∃ p ∈ c.persons, p.2.hasKey x = false := by
  rw [inconsistent_snps, foldl_inconStep_mem]
  simp only [Finset.not_mem_empty, false_or, Finset.mem_sdiff, and_assoc,
    not_false_iff, true_and]

theorem filter_persons (c : KitCollection) (m : String) :
    (c.filter m).persons =
      c.persons.filter (fun p => p.2.hasKey m && (p.2.call m == some m)) :=
  rfl

theorem yes_pred_iff {p : String × Muts} {m : String} :
    (p.2.hasKey m && (p.2.call m == some m)) = true ↔ p.2.call m = some m := by
  simp only [Bool.and_eq_true, beq_iff_eq]
  exact ⟨fun h => h.2, fun h => ⟨Muts.hasKey_of_call_eq_some h, h⟩⟩

theorem mem_filter_persons {c : KitCollection} {m : String} {p : String × Muts} :
    p ∈ (c.filter m).persons ↔ p ∈ c.persons ∧ p.2.call m = some m := by
  rw [filter_persons, List.mem_filter]
  exact and_congr_right (fun _ => yes_pred_iff)

theorem mem_ids {c : KitCollection} {x : String} :
    x ∈ c.ids ↔ ∃ p ∈ c.persons, p.1 = x := by
  simp [ids]

end KitCollection

/-! Concrete collections from `bigy_snp_unittest.py`, used as witnesses. -/

/-- The sample tree of `test_tree()` in the unit tests: clade `mut1` with
subclades `mut2` and `mut3`, and `mut31` below `mut3`; one person per
non-ancestral marker set. -/
def testTree : KitCollection :=
  ⟨[("mut1", ⟨[("mut1", "mut1")]⟩),
    ("mut2", ⟨[("mut1", "mut1"), ("mut2", "mut2")]⟩),
    ("mut3", ⟨[("mut1", "mut1"), ("mut3", "mut3")]⟩),
    ("mut31", ⟨[("mut1", "mut1"), ("mut3", "mut3"), ("mut31", "mut31")]⟩)]⟩

/-- The collection of `test_subclade_with_nc`: the sample tree plus a
person with a no-call on `mut3` who carries `mut31`. -/
def ncTree : KitCollection :=
  testTree.add_person "nocall-mut3" ⟨[("mut1", "mut1"), ("mut3", "nc"), ("mut31", "mut31")]⟩

/-- C1: a marker is in `inconsistent_snps()` exactly when it appears as a
key in some individual's mapping, is not in `consistent_snps()`, and is
absent as a key from at least one individual's mapping (a confirmed
negative).  In particular a marker that merely has ambiguous entries but
is never absent is not in `inconsistent_snps()`. -/
theorem inconsistent_snps_characterization (c : KitCollection) (m : String) :
    m ∈ c.inconsistent_snps ↔
      (∃ p ∈ c.persons, p.2.hasKey m = true) ∧ m ∉ c.consistent_snps ∧
        ∃ p ∈ c.persons, p.2.hasKey m = false := by
  rw [KitCollection.mem_inconsistent_snps]
  simp only [KitCollection.mem_snps, Muts.mem_keySet]

/-- C8: `consistent_snps()` is always a subset of `snps()`, and
`inconsistent_snps()` is always disjoint from `consistent_snps()`. -/
theorem consistent_subset_and_inconsistent_disjoint (c : KitCollection) :
    c.consistent_snps ⊆ c.snps ∧ c.inconsistent_snps ∩ c.consistent_snps = ∅ := by
  constructor
  · intro x hx
    exact (KitCollection.mem_consistent_snps.mp hx).1
  · apply Finset.eq_empty_iff_forall_not_mem.mpr
    intro x hx
    rcases Finset.mem_inter.mp hx with ⟨hi, hc⟩
    exact (KitCollection.mem_inconsistent_snps.mp hi).2.1 hc

/-- C5: filtering twice on the same marker equals filtering once. -/
theorem filter_idempotent (c : KitCollection) (m : String) :
    (c.filter m).filter m = c.filter m := by
  have h : ((c.filter m).persons).filter
      (fun p => p.2.hasKey m && (p.2.call m == some m)) = (c.filter m).persons :=
    List.filter_eq_self.mpr (fun a ha => (List.mem_filter.mp ha).2)
  calc (c.filter m).filter m
      = ⟨((c.filter m).persons).filter
          (fun p => p.2.hasKey m && (p.2.call m == some m))⟩ := rfl
    _ = ⟨(c.filter m).persons⟩ := by rw [h]
    _ = c.filter m := rfl

/-- C7: a marker that is a key of no individual's mapping yields an empty
positive collection, an empty ambiguous collection, a negative collection
equal to the whole original collection, and an empty `filter`. -/
theorem split_unknown_marker (c : KitCollection) (m : String)
    (h : ∀ p ∈ c.persons, p.2.hasKey m = false) :
    (c.split m).1 = ⟨[]⟩ ∧ (c.split m).2.2 = ⟨[]⟩ ∧ (c.split m).2.1 = c ∧
      c.filter m = ⟨[]⟩ := by
  have hyes : c.persons.filter (fun p => p.2.hasKey m && (p.2.call m == some m)) = [] :=
    List.filter_eq_nil_iff.mpr (fun p hp => by simp [h p hp])
  have hmaybe : c.persons.filter (fun p => p.2.hasKey m && !(p.2.call m == some m)) = [] :=
    List.filter_eq_nil_iff.mpr (fun p hp => by simp [h p hp])
  have hno : c.persons.filter (fun p => !p.2.hasKey m) = c.persons :=
    List.filter_eq_self.mpr (fun p hp => by simp [h p hp])
  refine ⟨congrArg KitCollection.mk hyes, congrArg KitCollection.mk hmaybe, ?_,
    congrArg KitCollection.mk hyes⟩
  cases c with
  | mk l => exact congrArg KitCollection.mk hno

/-- Witness for C7 at the sample tree and a marker absent everywhere. -/
theorem split_unknown_marker_witness :
    (∀ p ∈ testTree.persons, p.2.hasKey "zzz" = false) ∧
      ((testTree.split "zzz").1 = ⟨[]⟩ ∧ (testTree.split "zzz").2.2 = ⟨[]⟩ ∧
        (testTree.split "zzz").2.1 = testTree ∧ testTree.filter "zzz" = ⟨[]⟩) :=
  ⟨by decide, split_unknown_marker testTree "zzz" (by decide)⟩

theorem mem_ids_filter {l : List (String × Muts)} {pred : String × Muts → Bool}
    {x : String} :
    x ∈ (KitCollection.mk (l.filter pred)).ids ↔ ∃ p ∈ l, pred p = true ∧ p.1 = x := by
  simp only [KitCollection.ids, List.mem_toFinset, List.mem_map, List.mem_filter]
  constructor
  · rintro ⟨p, ⟨hp, hpred⟩, rfl⟩; exact ⟨p, hp, hpred, rfl⟩
  · rintro ⟨p, hp, hpred, rfl⟩; exact ⟨p, ⟨hp, hpred⟩, rfl⟩

theorem mem_yes_ids {c : KitCollection} {m x : String} :
    x ∈ (c.split m).1.ids ↔
      ∃ p ∈ c.persons, (p.2.hasKey m && (p.2.call m == some m)) = true ∧ p.1 = x :=
  @mem_ids_filter c.persons (fun p => p.2.hasKey m && (p.2.call m == some m)) x

theorem mem_no_ids {c : KitCollection} {m x : String} :
    x ∈ (c.split m).2.1.ids ↔
      ∃ p ∈ c.persons, (!p.2.hasKey m) = true ∧ p.1 = x :=
  @mem_ids_filter c.persons (fun p => !p.2.hasKey m) x

theorem mem_maybe_ids {c : KitCollection} {m x : String} :
    x ∈ (c.split m).2.2.ids ↔
      ∃ p ∈ c.persons, (p.2.hasKey m && !(p.2.call m == some m)) = true ∧ p.1 = x :=
  @mem_ids_filter c.persons (fun p => p.2.hasKey m && !(p.2.call m == some m)) x

theorem ids_filter_disjoint {l : List (String × Muts)}
    (hnd : (l.map Prod.fst).Nodup) {pred1 pred2 : String × Muts → Bool}
    (h : ∀ p : String × Muts, ¬(pred1 p = true ∧ pred2 p = true)) :
    (KitCollection.mk (l.filter pred1)).ids ∩ (KitCollection.mk (l.filter pred2)).ids = ∅ := by
  apply Finset.eq_empty_iff_forall_not_mem.mpr
  intro x hx
  rcases Finset.mem_inter.mp hx with ⟨h1, h2⟩
  rcases mem_ids_filter.mp h1 with ⟨p, hp, hp1, rfl⟩
  rcases mem_ids_filter.mp h2 with ⟨q, hq, hq1, hfst⟩
  have hqp : q = p := List.inj_on_of_nodup_map hnd hq hp hfst
  subst hqp
  exact h q ⟨hp1, hq1⟩

/-- C4: for every marker (present or not), `split` partitions the
identifier set of the collection: the three identifier sets are pairwise
disjoint and their union is the whole identifier set.  The uniqueness of
the identifiers (automatic for a Python dict) is the `Nodup` hypothesis. -/
theorem split_is_partition (c : KitCollection) (m : String)
    (hnd : (c.persons.map Prod.fst).Nodup) :
    ((c.split m).1.ids ∪ (c.split m).2.1.ids ∪ (c.split m).2.2.ids = c.ids) ∧
    ((c.split m).1.ids ∩ (c.split m).2.1.ids = ∅) ∧
    ((c.split m).1.ids ∩ (c.split m).2.2.ids = ∅) ∧
    ((c.split m).2.1.ids ∩ (c.split m).2.2.ids = ∅) := by
  refine ⟨?_, ?_, ?_, ?_⟩
  · ext x
    rw [Finset.mem_union, Finset.mem_union, mem_yes_ids, mem_no_ids, mem_maybe_ids,
      KitCollection.mem_ids]
    constructor
    · rintro ((⟨p, hp, -, rfl⟩ | ⟨p, hp, -, rfl⟩) | ⟨p, hp, -, rfl⟩) <;>
        exact ⟨p, hp, rfl⟩
    · rintro ⟨p, hp, rfl⟩
      by_cases hk : p.2.hasKey m = true
      · by_cases hc : (p.2.call m == some m) = true
        · exact Or.inl (Or.inl ⟨p, hp, by simp [hk, hc], rfl⟩)
        · exact Or.inr ⟨p, hp, by simp [hk, hc], rfl⟩
      · exact Or.inl (Or.inr ⟨p, hp, by simp [hk], rfl⟩)
  · exact ids_filter_disjoint hnd
      (fun p => by
        rintro ⟨hy, hn⟩
        simp only [Bool.and_eq_true] at hy
        simp [hy.1] at hn)
  · exact ids_filter_disjoint hnd
      (fun p => by
        rintro ⟨hy, hu⟩
        simp only [Bool.and_eq_true] at hy hu
        simp [hy.2] at hu)
  · exact ids_filter_disjoint hnd
      (fun p => by
        rintro ⟨hn, hu⟩
        simp only [Bool.and_eq_true] at hu
        simp [hu.1] at hn)

/-- Witness for C4 at the sample tree and marker mut3. -/
theorem split_is_partition_witness :
    (testTree.persons.map Prod.fst).Nodup ∧
      ((testTree.split "mut3").1.ids ∪ (testTree.split "mut3").2.1.ids ∪
          (testTree.split "mut3").2.2.ids = testTree.ids ∧
        (testTree.split "mut3").1.ids ∩ (testTree.split "mut3").2.1.ids = ∅ ∧
        (testTree.split "mut3").1.ids ∩ (testTree.split "mut3").2.2.ids = ∅ ∧
        (testTree.split "mut3").2.1.ids ∩ (testTree.split "mut3").2.2.ids = ∅) :=
  ⟨by decide, split_is_partition testTree "mut3" (by decide)⟩

theorem foldl_shrink_subset {α : Type} (g : Finset String → α → Finset String)
    (hg : ∀ f a, g f a ⊆ f) :
    ∀ (l : List α) (f0 : Finset String), l.foldl g f0 ⊆ f0 := by
  intro l
  induction l with
  | nil => intro f0; exact Finset.Subset.refl f0
  | cons h t ih => intro f0; exact (ih (g f0 h)).trans (hg f0 h)

theorem erase_step_subset (c : KitCollection) (snp1 : String) (f2 : Finset String)
    (snp2 : String) :
    (if c.secondLookDrops snp1 snp2 then f2.erase snp1 else f2) ⊆ f2 := by
  split
  · exact Finset.erase_subset _ _
  · exact Finset.Subset.refl _

theorem firstLevelAfterSecondLook_subset (c : KitCollection) :
    c.firstLevelAfterSecondLook ⊆ c.firstLevelAfterProfiles :=
  foldl_shrink_subset _
    (fun f snp1 => foldl_shrink_subset _
      (fun f2 snp2 => erase_step_subset c snp1 f2 snp2)
      (sortedList c.secondLook) f)
    (sortedList c.secondLook) c.firstLevelAfterProfiles

theorem subcladeKeys_subset_candidateKeys (c : KitCollection) :
    c.subcladeKeys ⊆ c.candidateKeys := by
  intro x hx
  have h1 : x ∈ c.firstLevelAfterSecondLook := (Finset.mem_sdiff.mp hx).1
  have h2 : x ∈ c.firstLevelAfterProfiles := firstLevelAfterSecondLook_subset c h1
  exact Finset.filter_subset _ c.candidateKeys h2

theorem candidateKeys_subset_inconsistent (c : KitCollection) :
    c.candidateKeys ⊆ c.inconsistent_snps :=
  Finset.filter_subset _ _

/-- C6: a collection with zero or one individual has no subclade
candidates. -/
theorem subclade_candidates_empty_of_count_le_one (c : KitCollection)
    (h : c.count ≤ 1) :
    c.subclade_candidates = [] := by
  have huniq : ∀ a ∈ c.persons, ∀ b ∈ c.persons, a = b := by
    intro a ha b hb
    rcases hl : c.persons with _ | ⟨u, _ | ⟨v, t⟩⟩
    · rw [hl] at ha; simp at ha
    · rw [hl] at ha hb
      simp only [List.mem_singleton] at ha hb
      rw [ha, hb]
    · exfalso
      have hc : c.count = c.persons.length := rfl
      rw [hl] at hc
      rw [hc] at h
      simp at h
  have hincon : c.inconsistent_snps = ∅ := by
    apply Finset.eq_empty_iff_forall_not_mem.mpr
    intro x hx
    rcases KitCollection.mem_inconsistent_snps.mp hx with ⟨hs, -, q, hq, hkf⟩
    rcases KitCollection.mem_snps.mp hs with ⟨p, hp, hkey⟩
    rw [Muts.mem_keySet] at hkey
    rw [huniq p hp q hq] at hkey
    rw [hkey] at hkf
    simp at hkf
  have hcand : c.candidateKeys = ∅ :=
    Finset.subset_empty.mp (hincon ▸ candidateKeys_subset_inconsistent c)
  have hfl3 : c.firstLevelAfterProfiles = ∅ :=
    Finset.subset_empty.mp (hcand ▸ Finset.filter_subset _ c.candidateKeys)
  have hfl5 : c.firstLevelAfterSecondLook = ∅ :=
    Finset.subset_empty.mp (hfl3 ▸ firstLevelAfterSecondLook_subset c)
  have hkeys : c.subcladeKeys = ∅ := by
    unfold KitCollection.subcladeKeys
    rw [hfl5]
    exact Finset.empty_sdiff _
  unfold KitCollection.subclade_candidates
  rw [hkeys]
  rfl

/-- Witness for C6 at a one-person collection. -/
theorem subclade_candidates_empty_witness :
    (KitCollection.mk [("solo", ⟨[("mut0", "mut0")]⟩)]).count ≤ 1 ∧
      (KitCollection.mk [("solo", ⟨[("mut0", "mut0")]⟩)]).subclade_candidates = [] :=
  ⟨by decide,
   subclade_candidates_empty_of_count_le_one
     (KitCollection.mk [("solo", ⟨[("mut0", "mut0")]⟩)]) (by decide)⟩

/-- C9: a marker with a non-empty positive sub-collection belongs to its
own profile (`filter(m).consistent_snps()`), and consequently every key of
the mapping returned by `subclade_candidates()` belongs to its own
profile. -/
theorem marker_in_own_profile (c : KitCollection) (m : String) :
    (0 < (c.filter m).count → m ∈ (c.filter m).consistent_snps) ∧
      ∀ pr ∈ c.subclade_candidates, pr.1 ∈ (c.filter pr.1).consistent_snps := by
  have key : ∀ m' : String,
      0 < (c.filter m').count → m' ∈ (c.filter m').consistent_snps := by
    intro m' h
    rcases List.exists_mem_of_length_pos h with ⟨p0, hp0⟩
    rcases KitCollection.mem_filter_persons.mp hp0 with ⟨-, hcall0⟩
    rw [KitCollection.mem_consistent_snps]
    constructor
    · rw [KitCollection.mem_snps]
      refine ⟨p0, hp0, ?_⟩
      rw [Muts.mem_keySet]
      exact Muts.hasKey_of_call_eq_some hcall0
    · intro p hp
      rcases KitCollection.mem_filter_persons.mp hp with ⟨-, hcall⟩
      exact Muts.mem_positiveSet.mpr hcall
  refine ⟨key m, fun pr hpr => ?_⟩
  unfold KitCollection.subclade_candidates at hpr
  rcases List.mem_map.mp hpr with ⟨s, hs, rfl⟩
  have hsk : s ∈ c.subcladeKeys := mem_sortedList.mp hs
  have hck : s ∈ c.candidateKeys := subcladeKeys_subset_candidateKeys c hsk
  exact key s (Finset.mem_filter.mp hck).2

/-- Witness for C9 at the sample tree: mut2 has a non-empty positive
sub-collection, and mut3 is a returned key; both lie in their own
profiles. -/
theorem marker_in_own_profile_witness :
    (0 < (testTree.filter "mut2").count ∧
        ("mut3", (∅ : Finset String)) ∈ testTree.subclade_candidates) ∧
      "mut2" ∈ (testTree.filter "mut2").consistent_snps ∧
      "mut3" ∈ (testTree.filter "mut3").consistent_snps :=
  ⟨⟨by decide, by decide⟩,
   (marker_in_own_profile testTree "mut2").1 (by decide),
   (marker_in_own_profile testTree "mut3").2 ("mut3", ∅) (by decide)⟩

theorem inner_drop_not_mem (c : KitCollection) (s1 : String) :
    ∀ (l2 : List String) (f0 : Finset String),
      (∃ s2 ∈ l2, c.secondLookDrops s1 s2) →
      s1 ∉ l2.foldl
        (fun fl2 snp2 => if c.secondLookDrops s1 snp2 then fl2.erase s1 else fl2) f0 := by
  intro l2
  induction l2 with
  | nil => rintro f0 ⟨s2, hs2, -⟩; simp at hs2
  | cons h2 t2 ih =>
    rintro f0 ⟨s2, hs2, hd⟩
    rw [List.foldl_cons]
    rcases List.mem_cons.mp hs2 with rfl | hs2t
    · rw [if_pos hd]
      intro hmem
      have hsub := foldl_shrink_subset _
        (fun f a => erase_step_subset c s1 f a) t2 (f0.erase s1)
      exact Finset.not_mem_erase s1 f0 (hsub hmem)
    · by_cases hd0 : c.secondLookDrops s1 h2
      · rw [if_pos hd0]
        intro hmem
        have hsub := foldl_shrink_subset _
          (fun f a => erase_step_subset c s1 f a) t2 (f0.erase s1)
        exact Finset.not_mem_erase s1 f0 (hsub hmem)
      · rw [if_neg hd0]
        exact ih f0 ⟨s2, hs2t, hd⟩

theorem outer_drop_not_mem (c : KitCollection) (x : String) (l2 : List String)
    (hx2 : ∃ s2 ∈ l2, c.secondLookDrops x s2) :
    ∀ (l1 : List String) (f0 : Finset String), x ∈ l1 →
      x ∉ l1.foldl
        (fun fl snp1 => l2.foldl
          (fun fl2 snp2 => if c.secondLookDrops snp1 snp2 then fl2.erase snp1 else fl2)
          fl) f0 := by
  intro l1
  induction l1 with
  | nil => intro f0 hx; simp at hx
  | cons h1 t1 ih =>
    intro f0 hx
    rw [List.foldl_cons]
    rcases List.mem_cons.mp hx with rfl | hxt
    · intro hmem
      have hstep : ∀ (f : Finset String) (a : String),
          l2.foldl
            (fun fl2 snp2 => if c.secondLookDrops a snp2 then fl2.erase a else fl2) f ⊆ f :=
        fun f a => foldl_shrink_subset _ (fun f2 a2 => erase_step_subset c a f2 a2) l2 f
      have hsub := foldl_shrink_subset _ hstep t1
        (l2.foldl
          (fun fl2 snp2 => if c.secondLookDrops x snp2 then fl2.erase x else fl2) f0)
      exact inner_drop_not_mem c x l2 f0 hx2 (hsub hmem)
    · exact ih _ hxt

/-- C3: if two markers both survive the profile-comparison phase, their
profiles are incomparable, and the individuals confirmed positive for the
first form a proper subset of those confirmed positive or ambiguous for
the second, then the second-look heuristic discards the first marker: it
is not a surviving candidate and not a key of the returned mapping. -/
theorem second_look_discards (c : KitCollection) (m1 m2 : String)
    (h1 : m1 ∈ c.firstLevelAfterProfiles) (h2 : m2 ∈ c.firstLevelAfterProfiles)
    (hinc : KitCollection.incomp (c.consistent_for_this m1) (c.consistent_for_this m2))
    (hsub : (c.split m1).1.ids ⊂ (c.split m2).1.ids ∪ (c.split m2).2.2.ids) :
    m1 ∉ c.firstLevelAfterSecondLook ∧
      ∀ pr ∈ c.subclade_candidates, pr.1 ≠ m1 := by
  have hne : m2 ≠ m1 := fun h => hinc.2.2 (by rw [h])
  have hc1 : m1 ∈ c.candidateKeys := Finset.filter_subset _ _ h1
  have hc2 : m2 ∈ c.candidateKeys := Finset.filter_subset _ _ h2
  have hs1 : m1 ∈ c.secondLook := by
    unfold KitCollection.secondLook
    exact Finset.mem_inter.mpr
      ⟨Finset.mem_filter.mpr ⟨hc1, m2, hc2, hne, hinc⟩, h1⟩
  have hs2 : m2 ∈ c.secondLook := by
    unfold KitCollection.secondLook
    exact Finset.mem_inter.mpr
      ⟨Finset.mem_filter.mpr
        ⟨hc2, m1, hc1, fun h => hne h.symm,
          hinc.2.1, hinc.1, fun h => hinc.2.2 h.symm⟩, h2⟩
  have hdrop : ∃ s2 ∈ sortedList c.secondLook, c.secondLookDrops m1 s2 :=
    ⟨m2, mem_sortedList.mpr hs2, hinc, hsub⟩
  have hnot : m1 ∉ c.firstLevelAfterSecondLook :=
    outer_drop_not_mem c m1 (sortedList c.secondLook) hdrop
      (sortedList c.secondLook) c.firstLevelAfterProfiles (mem_sortedList.mpr hs1)
  refine ⟨hnot, fun pr hpr => ?_⟩
  rcases List.mem_map.mp hpr with ⟨s, hs, rfl⟩
  intro heq
  have hsk : s ∈ c.subcladeKeys := mem_sortedList.mp hs
  have hfl : s ∈ c.firstLevelAfterSecondLook := (Finset.mem_sdiff.mp hsk).1
  exact hnot ((show s = m1 from heq) ▸ hfl)

/-- Witness for C3 at the no-call collection of `test_subclade_with_nc`:
mut31 is incomparable with mut3 but its positives are a proper subset of
mut3's positives plus no-calls, so mut31 is discarded. -/
theorem second_look_discards_witness :
    ("mut31" ∈ ncTree.firstLevelAfterProfiles ∧
     "mut3" ∈ ncTree.firstLevelAfterProfiles ∧
     KitCollection.incomp (ncTree.consistent_for_this "mut31")
       (ncTree.consistent_for_this "mut3") ∧
     (ncTree.split "mut31").1.ids ⊂
       (ncTree.split "mut3").1.ids ∪ (ncTree.split "mut3").2.2.ids) ∧
    ("mut31" ∉ ncTree.firstLevelAfterSecondLook ∧
      ∀ pr ∈ ncTree.subclade_candidates, pr.1 ≠ "mut31") :=
  ⟨⟨by decide, by decide, by decide, by decide⟩,
   second_look_discards ncTree "mut31" "mut3" (by decide) (by decide) (by decide)
     (by decide)⟩

theorem collapse_mono (c : KitCollection) :
    ∀ (l : List String) (f0 : Finset String),
      f0 ⊆ l.foldl
        (fun dnp snp => if snp ∈ dnp then dnp else dnp ∪ c.equivalents snp) f0 := by
  intro l
  induction l with
  | nil => intro f0; exact Finset.Subset.refl f0
  | cons h t ih =>
    intro f0
    rw [List.foldl_cons]
    refine Finset.Subset.trans ?_ (ih _)
    split
    · exact Finset.Subset.refl f0
    · exact Finset.subset_union_left

theorem collapse_eqv_subset (c : KitCollection) :
    ∀ (l : List String) (f0 : Finset String) (x : String), x ∈ l →
      x ∉ l.foldl
        (fun dnp snp => if snp ∈ dnp then dnp else dnp ∪ c.equivalents snp) f0 →
      c.equivalents x ⊆ l.foldl
        (fun dnp snp => if snp ∈ dnp then dnp else dnp ∪ c.equivalents snp) f0 := by
  intro l
  induction l with
  | nil => intro f0 x hx; simp at hx
  | cons h t ih =>
    intro f0 x hx hnot
    rw [List.foldl_cons] at hnot ⊢
    rcases List.mem_cons.mp hx with rfl | hxt
    · by_cases hh : x ∈ f0
      · exact absurd (collapse_mono c t _ (by rw [if_pos hh]; exact hh)) hnot
      · refine Finset.Subset.trans ?_ (collapse_mono c t _)
        rw [if_neg hh]
        exact Finset.subset_union_right
    · exact ih _ x hxt hnot

theorem mem_equivalents_iff {c : KitCollection} {a b : String} :
    b ∈ c.equivalents a ↔
      b ∈ c.candidateKeys ∧ b ≠ a ∧
        c.consistent_for_this a = c.consistent_for_this b := by
  unfold KitCollection.equivalents
  rw [Finset.mem_filter]

/-- C10: no key of the mapping returned by `subclade_candidates()` occurs
in any of the mapping's value sets: a surviving representative is never
listed as an equivalent of itself or of another representative. -/
theorem subclade_keys_not_in_values (c : KitCollection) :
    ∀ pr ∈ c.subclade_candidates, ∀ pr' ∈ c.subclade_candidates, pr.1 ∉ pr'.2 := by
  intro pr hpr pr' hpr'
  rcases List.mem_map.mp hpr with ⟨k, hk, rfl⟩
  rcases List.mem_map.mp hpr' with ⟨k', hk', rfl⟩
  intro hmem
  have hks : k ∈ c.subcladeKeys := mem_sortedList.mp hk
  have hks' : k' ∈ c.subcladeKeys := mem_sortedList.mp hk'
  rcases Finset.mem_sdiff.mp hks with ⟨hfl, hdnp⟩
  rcases Finset.mem_sdiff.mp hks' with ⟨hfl', hdnp'⟩
  rcases mem_equivalents_iff.mp hmem with ⟨hkc, hne, heqp⟩
  have hk'c : k' ∈ c.candidateKeys := subcladeKeys_subset_candidateKeys c hks'
  have hsym : k' ∈ c.equivalents k :=
    mem_equivalents_iff.mpr ⟨hk'c, fun h => hne h.symm, heqp.symm⟩
  have hsubs := collapse_eqv_subset c (sortedList c.firstLevelAfterSecondLook) ∅ k
    (mem_sortedList.mpr hfl) hdnp
  exact hdnp' (hsubs hsym)

/-- A collection with two indistinguishable derived markers mx and my:
their profiles are equal, so one is collapsed as the other's equivalent. -/
def eqTree : KitCollection :=
  ⟨[("anc", ⟨[("m1", "m1")]⟩),
    ("der", ⟨[("m1", "m1"), ("mx", "mx"), ("my", "my")]⟩)]⟩

/-- Witness for C10 at the two-person collection with equivalent markers:
the returned mapping is exactly mx ↦ {my}, and mx is not in that value
set. -/
theorem subclade_keys_not_in_values_witness :
    ("mx", ({"my"} : Finset String)) ∈ eqTree.subclade_candidates ∧
      "mx" ∉ ({"my"} : Finset String) :=
  ⟨by decide,
   subclade_keys_not_in_values eqTree ("mx", {"my"}) (by decide)
     ("mx", {"my"}) (by decide)⟩

/-- C2: on the four-individual sample tree, `consistent_snps()` is exactly
{mut1}, `inconsistent_snps()` is exactly {mut2, mut3, mut31}, and the key
set of `subclade_candidates()` is exactly {mut2, mut3}. -/
theorem sample_tree_results :
    testTree.consistent_snps = {"mut1"} ∧
      testTree.inconsistent_snps = {"mut2", "mut3", "mut31"} ∧
      (testTree.subclade_candidates.map Prod.fst).toFinset = {"mut2", "mut3"} :=
  ⟨by decide, by decide, by decide⟩
